import Mathlib

/-!
Verification of the `repo-sync` service: a shallow embedding of its
path guard (`src/path_guard.rs`), sync engine status transitions
(`src/sync.rs`), and file server (`src/server.rs`), together with
theorems settling the specification's claims about them.

Strings of the Rust source (`&str`, `String`) are modelled as Lean
`String`; byte counts and sizes are `Nat`; fallible Rust functions
returning `anyhow::Result` are modelled with `Except String` carrying
the exact message of the `anyhow!` call that produced the error.
-/

/-! ## UTF-8 model

`normalize_relative_path` ends with `normalized.to_str()`, which on Unix
re-validates the accumulated `PathBuf` bytes as UTF-8 (`str::from_utf8`).
To settle whether that failure branch is reachable we model the UTF-8
encoding of a Rust `&str` (guaranteed valid, i.e. built from Unicode
scalar values) and the byte-level validation rules of `str::from_utf8`.
Byte values are `Nat` (always < 256 for real encodings); arithmetic
`/ %` replaces the bit operations of the Rust core routine, with the
same values on every input.
-/

/-- The UTF-8 encoding of a Unicode scalar value `n`, as the list of its
byte values (the bytes `char::encode_utf8` produces in Rust). -/
def utf8EncodeScalar (n : Nat) : List Nat :=
  if n < 0x80 then [n]
  else if n < 0x800 then [0xC0 + n / 64, 0x80 + n % 64]
  else if n < 0x10000 then [0xE0 + n / 4096, 0x80 + n / 64 % 64, 0x80 + n % 64]
  else [0xF0 + n / 262144, 0x80 + n / 4096 % 64, 0x80 + n / 64 % 64, 0x80 + n % 64]

/-- The ranges `str::from_utf8` allows for the continuation bytes of a
sequence led by `b1` (`none` = invalid lead byte).  The tightened ranges
on the second byte after `0xE0`, `0xED`, `0xF0` and `0xF4` reject
overlong forms, surrogates and values above `U+10FFFF`, exactly as
Rust's validator does. -/
def utf8LeadRanges (b1 : Nat) : Option (List (Nat × Nat)) :=
  if b1 < 0x80 then some []
  else if b1 < 0xC2 then none
  else if b1 ≤ 0xDF then some [(0x80, 0xBF)]
  else if b1 = 0xE0 then some [(0xA0, 0xBF), (0x80, 0xBF)]
  else if b1 = 0xED then some [(0x80, 0x9F), (0x80, 0xBF)]
  else if b1 ≤ 0xEF then some [(0x80, 0xBF), (0x80, 0xBF)]
  else if b1 = 0xF0 then some [(0x90, 0xBF), (0x80, 0xBF), (0x80, 0xBF)]
  else if b1 ≤ 0xF3 then some [(0x80, 0xBF), (0x80, 0xBF), (0x80, 0xBF)]
  else if b1 = 0xF4 then some [(0x80, 0x8F), (0x80, 0xBF), (0x80, 0xBF)]
  else none

/-- One step per byte: `expected` holds the allowed ranges for the
continuation bytes still owed by the current sequence. -/
def utf8ValidExp : List (Nat × Nat) → List Nat → Bool
  | [], [] => true
  | _ :: _, [] => false
  | [], b :: rest =>
    match utf8LeadRanges b with
    | none => false
    | some expected => utf8ValidExp expected rest
  | (lo, hi) :: more, b :: rest =>
    decide (lo ≤ b) && decide (b ≤ hi) && utf8ValidExp more rest

/-- The byte-level acceptance condition of Rust's `str::from_utf8`:
structurally valid (non-overlong, surrogate-free) UTF-8. -/
def utf8Valid (bytes : List Nat) : Bool :=
  utf8ValidExp [] bytes

/-- The UTF-8 bytes underlying a Rust `&str` with the characters of `s`. -/
def utf8Bytes (s : String) : List Nat :=
  (s.data.map (fun c => utf8EncodeScalar c.toNat)).flatten

/-! ## Path guard (`src/path_guard.rs`)

`normalize_relative_path` iterates `Path::new(value).components()`.  We
model a Unix target: a `Component` is the root directory, `.` (current
dir), `..` (parent dir) or a normal segment; `Component::Prefix` is a
Windows drive prefix and never occurs on Unix (the source rejects it
exactly like `RootDir`, so nothing is lost by omitting it).
`components()` splits on `'/'`, drops empty segments, and reports a
leading `'/'` as `RootDir`.  (Rust additionally drops non-leading `.`
segments already in the iterator; we keep every `.` as `CurDir`, which
the consuming loop skips, so the function computed is identical.) -/

inductive Component where
  | rootDir
  | curDir
  | parentDir
  | normal (s : String)
  deriving DecidableEq, Repr

/-- Classify one non-empty path segment, as `components()` does. -/
def segComponent (s : String) : Component :=
  if s = "." then Component.curDir
  else if s = ".." then Component.parentDir
  else Component.normal s

/-- The non-empty `/`-separated segments of a path string. -/
def pathSegStrings (value : String) : List String :=
  ((value.data.splitOn '/').map String.mk).filter (fun s => s ≠ "")

/-- Model of `Path::new(value).components()` on Unix. -/
def pathComponents (value : String) : List Component :=
  let comps := (pathSegStrings value).map segComponent
  if value.data.head? = some '/' then Component.rootDir :: comps else comps

/-- The `for component in path.components()` loop of
`normalize_relative_path`: `normalized : PathBuf` is the list of pushed
segments; `Component::Normal` pushes, `CurDir` is skipped, `ParentDir`
pops (failing with the escape error when there is nothing to pop), and
`RootDir`/`Prefix` abort with the absolute-path error. -/
def normalizeComponents : List Component → List String → Except String (List String)
  | [], normalized => Except.ok normalized
  | Component.normal c :: rest, normalized => normalizeComponents rest (normalized ++ [c])
  | Component.curDir :: rest, normalized => normalizeComponents rest normalized
  | Component.parentDir :: rest, normalized =>
    if normalized.isEmpty then Except.error "path escapes root"
    else normalizeComponents rest normalized.dropLast
  | Component.rootDir :: _, _ => Except.error "absolute paths are not allowed"

/-- The string a `PathBuf` holding the pushed segments `segs` renders to:
the segments joined by `'/'` (what `to_str` returns on success). -/
def renderPath (segs : List String) : String :=
  String.mk (List.intercalate ['/'] (segs.map String.data))

/-- Model of `normalized.to_str()`: the `PathBuf`'s bytes re-validated as
UTF-8; `none` models the `None` that would select the
"path contains invalid unicode" error. -/
def pathBufToStr (segs : List String) : Option String :=
  if utf8Valid (utf8Bytes (renderPath segs)) then some (renderPath segs) else none

/-- `normalize_relative_path` from `src/path_guard.rs`. -/
def normalize_relative_path (value : String) : Except String String :=
  match normalizeComponents (pathComponents value) [] with
  | Except.error e => Except.error e
  | Except.ok segs =>
    match pathBufToStr segs with
    | none => Except.error "path contains invalid unicode"
    | some normalized_str => Except.ok normalized_str

/-- Model of `Path::join` (i.e. `PathBuf::push`) for the strings this
program joins: an absolute right-hand side replaces the left; otherwise
the right is appended, inserting a `'/'` unless the left is empty or
already ends in one. -/
def pathJoin (root rel : String) : String :=
  if rel.data.head? = some '/' then rel
  else if root = "" then rel
  else if root.data.getLast? = some '/' then root ++ rel
  else root ++ "/" ++ rel

/-- `resolve_under_root` from `src/path_guard.rs`. -/
def resolve_under_root (root : String) (request_path : String) : Except String String :=
  match normalize_relative_path request_path with
  | Except.error e => Except.error e
  | Except.ok normalized => Except.ok (pathJoin root normalized)

/-! ### Derived path predicates

Specification-side notions used to state the claims: which segments the
guard may output, when a component sequence walks above the root, and
the normal-segment strings of a component sequence. -/

/-- A path segment accepted into the normalized output: non-empty, not a
dot form, and free of separators. -/
def GoodSeg (s : String) : Prop :=
  s ≠ "" ∧ s ≠ "." ∧ s ≠ ".." ∧ '/' ∉ s.data

/-- The non-empty `/`-separated segments of raw character data
(`pathSegStrings` stated on `String.data`). -/
def dataSegStrings (d : List Char) : List String :=
  ((d.splitOn '/').map String.mk).filter (fun s => s ≠ "")

/-- `escapesFrom comps depth` says a parent reference occurs at a point
where the walk (starting `depth` segments deep) has no accepted segment
left to pop — the spec's "would move above the root".  A root component
never escapes (the loop aborts with the absolute-path error there). -/
def escapesFrom : List Component → Nat → Bool
  | [], _ => false
  | Component.normal _ :: rest, depth => escapesFrom rest (depth + 1)
  | Component.curDir :: rest, depth => escapesFrom rest depth
  | Component.parentDir :: _, 0 => true
  | Component.parentDir :: rest, depth + 1 => escapesFrom rest depth
  | Component.rootDir :: _, _ => false

/-- The strings of the normal components, in order (the lexically
simplified path of a `.`-and-normal-only input). -/
def normalStrings (comps : List Component) : List String :=
  comps.filterMap (fun c =>
    match c with
    | Component.normal s => some s
    | _ => none)

/-! ## Sync engine (`src/sync.rs`)

`SyncStatus` is the shared status record.  `sync_once` first stamps the
attempt time, then runs `ensure_repo_synced` (git work, modelled below),
then updates the record according to the outcome.  The git work itself
is I/O against a remote and a mirror directory; we model its outcome as
an explicit `Except` input to the pure status transition, and model
`ensure_repo_synced_blocking`'s own control flow over an environment
recording what each filesystem/git operation would report.
Timestamps (`Utc::now()`) are opaque `Nat` inputs. -/

structure SyncStatus where
  current_sha : Option String := none
  previous_sha : Option String := none
  last_success_at : Option Nat := none
  last_attempt_at : Option Nat := none
  last_error : Option String := none
  deriving DecidableEq, Repr

/-- The status transition performed by `sync_once`: stamp
`last_attempt_at := attemptAt`; on `Ok(sha)` from `ensure_repo_synced`,
move `current_sha` into `previous_sha` when the new sha differs, then
set `current_sha`, `last_success_at` and clear `last_error`; on `Err`,
record the message in `last_error` and propagate the error. -/
def sync_once (status : SyncStatus) (attemptAt : Nat)
    (syncResult : Except String String) (successAt : Nat) :
    SyncStatus × Except String Unit :=
  let stamped := { status with last_attempt_at := some attemptAt }
  match syncResult with
  | Except.ok sha =>
    let moved :=
      if stamped.current_sha = some sha then stamped
      else { stamped with previous_sha := stamped.current_sha }
    ({ moved with
        current_sha := some sha
        last_success_at := some successAt
        last_error := none }, Except.ok ())
  | Except.error err =>
    ({ stamped with last_error := some err }, Except.error err)

/-- The distinct failure exits of `ensure_repo_synced_blocking`, in
source order, each naming the `anyhow` context of the step that failed. -/
inductive SyncError where
  | createParentFailed
  | cloneFailed
  | mirrorDirDoesNotExist
  | openFailed
  | setOriginFailed
  | fetchFailed
  | resetFailed
  | cleanFailed
  | headFailed
  | emptyCommitSha
  deriving DecidableEq, Repr

/-- The observable state `ensure_repo_synced_blocking` runs against:
what the two existence checks see, and whether each subsequent
filesystem/git operation succeeds.  `headSha = none` models
`repo.head()`/`head.target()` failing. -/
structure GitEnv where
  dotGitExists : Bool
  mirrorDirExists : Bool
  createParentOk : Bool
  cloneOk : Bool
  openOk : Bool
  setOriginOk : Bool
  fetchOk : Bool
  resetOk : Bool
  cleanOk : Bool
  headSha : Option String
  deriving DecidableEq, Repr

/-- The open → set-origin → fetch → reset → clean → read-HEAD tail of
`ensure_repo_synced_blocking` (everything after the clone-or-check
block). -/
def syncRepoSteps (env : GitEnv) : Except SyncError String :=
  if !env.openOk then Except.error SyncError.openFailed
  else if !env.setOriginOk then Except.error SyncError.setOriginFailed
  else if !env.fetchOk then Except.error SyncError.fetchFailed
  else if !env.resetOk then Except.error SyncError.resetFailed
  else if !env.cleanOk then Except.error SyncError.cleanFailed
  else
    match env.headSha with
    | none => Except.error SyncError.headFailed
    | some sha =>
      if sha = "" then Except.error SyncError.emptyCommitSha
      else Except.ok sha

/-- `ensure_repo_synced_blocking` from `src/sync.rs`: when
`mirror_dir/.git` does not exist, create the parent and clone; otherwise,
when `mirror_dir` itself does not exist, fail with the
`"mirror dir does not exist"` error; then run the remaining git steps. -/
def ensure_repo_synced_blocking (env : GitEnv) : Except SyncError String :=
  if !env.dotGitExists then
    if !env.createParentOk then Except.error SyncError.createParentFailed
    else if !env.cloneOk then Except.error SyncError.cloneFailed
    else syncRepoSteps env
  else if !env.mirrorDirExists then Except.error SyncError.mirrorDirDoesNotExist
  else syncRepoSteps env

/-! ## File server (`src/server.rs`)

`serve_file` is modelled over the observations it makes: the
`fs::metadata` result (`none` = any metadata error), the `fs::read`
result, and the request's `if-none-match` header after `to_str`
(`none` = header absent or not valid visible ASCII).  The SHA-256
digest of the `sha2`/`hex` crates is an external pure function of the
bytes, taken as the parameter `digestHex`.  The response is reduced to
its status and the fields the claims speak about (body and `ETag`);
`content-type` and `last-modified` decoration of the 200 response is
not modelled. -/

structure FileMeta where
  is_file : Bool
  len : Nat
  deriving DecidableEq, Repr

inductive Response where
  | notFound (errorMsg : String)
  | payloadTooLarge
  | internalServerError
  | notModified
  | okFile (body : List Nat) (etag : String)
  deriving DecidableEq, Repr

/-- `format!("\"{digest}\"")`: the quoted ETag for the given body. -/
def etagFor (digestHex : List Nat → String) (bytes : List Nat) : String :=
  "\"" ++ digestHex bytes ++ "\""

/-- `serve_file` from `src/server.rs`: metadata lookup (404 on error),
regular-file check (404), size limit (413), read (500 on error), then
the `if-none-match` comparison against the freshly computed ETag (304 on
exact match), else 200 with body and ETag. -/
def serve_file (digestHex : List Nat → String) (metadata : Option FileMeta)
    (readResult : Except Unit (List Nat)) (ifNoneMatch : Option String)
    (maxSize : Nat) : Response :=
  match metadata with
  | none => Response.notFound "file not found"
  | some m =>
    if !m.is_file then Response.notFound "not a file"
    else if m.len > maxSize then Response.payloadTooLarge
    else
      match readResult with
      | Except.error _ => Response.internalServerError
      | Except.ok bytes =>
        let etag := etagFor digestHex bytes
        match ifNoneMatch with
        | some clientEtag =>
          if clientEtag = etag then Response.notModified
          else Response.okFile bytes etag
        | none => Response.okFile bytes etag

structure HealthResponse where
  status : String
  current_sha : Option String
  last_success_at : Option Nat
  last_error : Option String
  deriving DecidableEq, Repr

/-- The `/health` handler from `src/server.rs`: `"degraded"` iff an
error is recorded and no success has ever occurred, else `"ok"`. -/
def health (status : SyncStatus) : HealthResponse :=
  let service_status :=
    if status.last_error.isSome ∧ status.last_success_at.isNone then "degraded"
    else "ok"
  { status := service_status
    current_sha := status.current_sha
    last_success_at := status.last_success_at
    last_error := status.last_error }

/-! ## Lemmas: UTF-8 round trip

Every byte sequence obtained by UTF-8-encoding a list of Unicode scalar
values passes `str::from_utf8`'s validation, so `to_str` cannot fail on
a `PathBuf` assembled from pieces of a `&str`. -/

theorem utf8ValidExp_lead (b : Nat) (rest : List Nat) (expected : List (Nat × Nat))
    (h : utf8LeadRanges b = some expected) :
    utf8ValidExp [] (b :: rest) = utf8ValidExp expected rest := by
  simp only [utf8ValidExp, h]

/-- Consuming continuation bytes that each sit inside their expected
range leaves the validator back in its initial state. -/
theorem utf8ValidExp_consume (expected : List (Nat × Nat)) (bs rest : List Nat)
    (h : List.Forall₂ (fun r b => r.1 ≤ b ∧ b ≤ r.2) expected bs) :
    utf8ValidExp expected (bs ++ rest) = utf8ValidExp [] rest := by
  induction h with
  | nil => rfl
  | @cons r b more bs2 hrb _ ih =>
    obtain ⟨lo, hi⟩ := r
    calc utf8ValidExp ((lo, hi) :: more) ((b :: bs2) ++ rest)
        = (decide (lo ≤ b) && decide (b ≤ hi) && utf8ValidExp more (bs2 ++ rest)) := rfl
      _ = utf8ValidExp more (bs2 ++ rest) := by
          rw [decide_eq_true hrb.1, decide_eq_true hrb.2, Bool.true_and, Bool.true_and]
      _ = utf8ValidExp [] rest := ih

set_option maxHeartbeats 1600000 in
theorem utf8Valid_encode_append (n : Nat)
    (hv : n < 0xd800 ∨ (0xdfff < n ∧ n < 0x110000)) (rest : List Nat) :
    utf8Valid (utf8EncodeScalar n ++ rest) = utf8Valid rest := by
  unfold utf8Valid
  by_cases h1 : n < 0x80
  · rw [utf8EncodeScalar, if_pos h1, List.cons_append, List.nil_append,
      utf8ValidExp_lead n rest []
        (by unfold utf8LeadRanges; split_ifs <;> first | rfl | omega)]
  · by_cases h2 : n < 0x800
    · rw [utf8EncodeScalar, if_neg h1, if_pos h2, List.cons_append, List.cons_append,
        List.nil_append,
        utf8ValidExp_lead (0xC0 + n / 64) _ [(0x80, 0xBF)]
          (by unfold utf8LeadRanges; split_ifs <;> first | rfl | omega)]
      exact utf8ValidExp_consume [(0x80, 0xBF)] [0x80 + n % 64] rest
        (List.Forall₂.cons (by omega) List.Forall₂.nil)
    · by_cases h3 : n < 0x10000
      · rw [utf8EncodeScalar, if_neg h1, if_neg h2, if_pos h3, List.cons_append,
          List.cons_append, List.cons_append, List.nil_append]
        by_cases hE0 : n < 0x1000
        · rw [utf8ValidExp_lead (0xE0 + n / 4096) _ [(0xA0, 0xBF), (0x80, 0xBF)]
            (by unfold utf8LeadRanges; split_ifs <;> first | rfl | omega)]
          exact utf8ValidExp_consume [(0xA0, 0xBF), (0x80, 0xBF)]
            [0x80 + n / 64 % 64, 0x80 + n % 64] rest
            (List.Forall₂.cons (by omega) (List.Forall₂.cons (by omega) List.Forall₂.nil))
        · by_cases hED : 0xD000 ≤ n ∧ n < 0xE000
          · rw [utf8ValidExp_lead (0xE0 + n / 4096) _ [(0x80, 0x9F), (0x80, 0xBF)]
              (by unfold utf8LeadRanges; split_ifs <;> first | rfl | omega)]
            exact utf8ValidExp_consume [(0x80, 0x9F), (0x80, 0xBF)]
              [0x80 + n / 64 % 64, 0x80 + n % 64] rest
              (List.Forall₂.cons (by omega)
                (List.Forall₂.cons (by omega) List.Forall₂.nil))
          · rw [utf8ValidExp_lead (0xE0 + n / 4096) _ [(0x80, 0xBF), (0x80, 0xBF)]
              (by unfold utf8LeadRanges; split_ifs <;> first | rfl | omega)]
            exact utf8ValidExp_consume [(0x80, 0xBF), (0x80, 0xBF)]
              [0x80 + n / 64 % 64, 0x80 + n % 64] rest
              (List.Forall₂.cons (by omega)
                (List.Forall₂.cons (by omega) List.Forall₂.nil))
      · have h4 : n < 0x110000 := by omega
        rw [utf8EncodeScalar, if_neg h1, if_neg h2, if_neg h3, List.cons_append,
          List.cons_append, List.cons_append, List.cons_append, List.nil_append]
        by_cases hF0 : n < 0x40000
        · rw [utf8ValidExp_lead (0xF0 + n / 262144) _ [(0x90, 0xBF), (0x80, 0xBF), (0x80, 0xBF)]
            (by unfold utf8LeadRanges; split_ifs <;> first | rfl | omega)]
          exact utf8ValidExp_consume [(0x90, 0xBF), (0x80, 0xBF), (0x80, 0xBF)]
            [0x80 + n / 4096 % 64, 0x80 + n / 64 % 64, 0x80 + n % 64] rest
            (List.Forall₂.cons (by omega) (List.Forall₂.cons (by omega)
              (List.Forall₂.cons (by omega) List.Forall₂.nil)))
        · by_cases hF4 : 0x100000 ≤ n
          · rw [utf8ValidExp_lead (0xF0 + n / 262144) _ [(0x80, 0x8F), (0x80, 0xBF), (0x80, 0xBF)]
              (by unfold utf8LeadRanges; split_ifs <;> first | rfl | omega)]
            exact utf8ValidExp_consume [(0x80, 0x8F), (0x80, 0xBF), (0x80, 0xBF)]
              [0x80 + n / 4096 % 64, 0x80 + n / 64 % 64, 0x80 + n % 64] rest
              (List.Forall₂.cons (by omega) (List.Forall₂.cons (by omega)
                (List.Forall₂.cons (by omega) List.Forall₂.nil)))
          · rw [utf8ValidExp_lead (0xF0 + n / 262144) _ [(0x80, 0xBF), (0x80, 0xBF), (0x80, 0xBF)]
              (by unfold utf8LeadRanges; split_ifs <;> first | rfl | omega)]
            exact utf8ValidExp_consume [(0x80, 0xBF), (0x80, 0xBF), (0x80, 0xBF)]
              [0x80 + n / 4096 % 64, 0x80 + n / 64 % 64, 0x80 + n % 64] rest
              (List.Forall₂.cons (by omega) (List.Forall₂.cons (by omega)
                (List.Forall₂.cons (by omega) List.Forall₂.nil)))

theorem utf8Valid_utf8Bytes (s : String) : utf8Valid (utf8Bytes s) = true := by
  unfold utf8Bytes
  induction s.data with
  | nil => rfl
  | cons c cs ih =>
    rw [List.map_cons, List.flatten_cons]
    rw [utf8Valid_encode_append c.toNat c.valid]
    exact ih

/-- `to_str` always succeeds on the normalized `PathBuf`. -/
theorem pathBufToStr_eq_some (segs : List String) :
    pathBufToStr segs = some (renderPath segs) := by
  rw [pathBufToStr, if_pos (utf8Valid_utf8Bytes (renderPath segs))]

/-- `normalize_relative_path` is the component loop followed by the
(never-failing) rendering of the accumulated segments. -/
theorem normalize_relative_path_eq (value : String) :
    normalize_relative_path value =
      match normalizeComponents (pathComponents value) [] with
      | Except.error e => Except.error e
      | Except.ok segs => Except.ok (renderPath segs) := by
  rw [normalize_relative_path]
  cases normalizeComponents (pathComponents value) [] with
  | error e => rfl
  | ok segs => simp [pathBufToStr_eq_some]

/-! ## Lemmas: path segments -/

theorem strMk_data (s : String) : String.mk s.data = s := rfl

theorem modifyHead_append {α : Type} (f : α → α) (a b : List α) (ha : a ≠ []) :
    (a ++ b).modifyHead f = a.modifyHead f ++ b := by
  cases a with
  | nil => exact absurd rfl ha
  | cons x t => simp

theorem splitOn_middle {α : Type} [DecidableEq α] (x : α) (l₁ l₂ : List α) :
    (l₁ ++ x :: l₂).splitOn x = l₁.splitOn x ++ l₂.splitOn x := by
  induction l₁ with
  | nil =>
    simp only [List.nil_append, List.splitOn, List.splitOnP_cons, beq_self_eq_true, if_pos]
    rw [List.splitOnP_nil]
    rfl
  | cons c t ih =>
    by_cases hc : c = x
    · subst hc
      simp only [List.cons_append, List.splitOn, List.splitOnP_cons, beq_self_eq_true,
        if_pos] at ih ⊢
      rw [ih]
    · have hbeq : (c == x) = false := beq_eq_false_iff_ne.mpr hc
      simp only [List.cons_append, List.splitOn, List.splitOnP_cons, hbeq,
        Bool.false_eq_true, if_false] at ih ⊢
      rw [ih, modifyHead_append _ _ _ (List.splitOnP_ne_nil _ t)]

theorem not_mem_of_mem_splitOn {α : Type} [DecidableEq α] {x : α} {l y : List α}
    (hy : y ∈ l.splitOn x) : x ∉ y := by
  induction l generalizing y with
  | nil =>
    simp only [List.splitOn_nil, List.mem_singleton] at hy
    subst hy
    exact List.not_mem_nil _
  | cons c t ih =>
    by_cases hc : c = x
    · subst hc
      simp only [List.splitOn, List.splitOnP_cons, beq_self_eq_true, if_pos] at hy
      rcases List.mem_cons.mp hy with h | h
      · subst h
        exact List.not_mem_nil _
      · exact ih h
    · have hbeq : (c == x) = false := beq_eq_false_iff_ne.mpr hc
      have hcons : (c :: t).splitOn x = (t.splitOn x).modifyHead (List.cons c) := by
        simp only [List.splitOn, List.splitOnP_cons, hbeq, Bool.false_eq_true, if_false]
      rw [hcons] at hy
      rcases hh : t.splitOn x with _ | ⟨hd, tl⟩
      · exact absurd hh (List.splitOnP_ne_nil _ t)
      · rw [hh, List.modifyHead_cons] at hy
        have hhd : hd ∈ t.splitOn x := by
          rw [hh]
          exact List.mem_cons_self hd tl
        rcases List.mem_cons.mp hy with h | h
        · subst h
          intro hmem
          rcases List.mem_cons.mp hmem with h | h
          · exact hc h.symm
          · exact ih hhd h
        · have hmem : y ∈ t.splitOn x := by
            rw [hh]
            exact List.mem_cons_of_mem hd h
          exact ih hmem

theorem mem_pathSegStrings {value : String} {s : String}
    (hs : s ∈ pathSegStrings value) : s ≠ "" ∧ '/' ∉ s.data := by
  unfold pathSegStrings at hs
  have hmem := List.mem_of_mem_filter hs
  have hne : s ≠ "" := by
    have := List.of_mem_filter hs
    simpa using this
  rcases List.mem_map.mp hmem with ⟨cs, hcs, hmk⟩
  refine ⟨hne, ?_⟩
  subst hmk
  exact not_mem_of_mem_splitOn hcs

theorem goodSeg_of_segComponent_normal {t s : String}
    (ht : t ≠ "" ∧ '/' ∉ t.data) (h : segComponent t = Component.normal s) :
    GoodSeg s := by
  unfold segComponent at h
  by_cases h1 : t = "."
  · rw [if_pos h1] at h
    exact absurd h (by simp)
  · rw [if_neg h1] at h
    by_cases h2 : t = ".."
    · rw [if_pos h2] at h
      exact absurd h (by simp)
    · rw [if_neg h2] at h
      have : t = s := by injection h
      subst this
      exact ⟨ht.1, h1, h2, ht.2⟩

/-- Every `Normal` component produced by `components()` carries a good
segment. -/
theorem goodSeg_of_mem_pathComponents {value s : String}
    (h : Component.normal s ∈ pathComponents value) : GoodSeg s := by
  unfold pathComponents at h
  have hmem : Component.normal s ∈ (pathSegStrings value).map segComponent := by
    by_cases hr : value.data.head? = some '/'
    · simp only [hr, if_pos] at h
      rcases List.mem_cons.mp h with h | h
      · exact absurd h (by simp)
      · exact h
    · simpa [hr] using h
  rcases List.mem_map.mp hmem with ⟨t, ht, hseg⟩
  exact goodSeg_of_segComponent_normal (mem_pathSegStrings ht) hseg

/-- Segments surviving the component loop all came from pushes of good
segments (popping only removes). -/
theorem normalizeComponents_ok_good {comps : List Component} {acc segs : List String}
    (h : normalizeComponents comps acc = Except.ok segs)
    (hacc : ∀ s ∈ acc, GoodSeg s)
    (hcomps : ∀ s, Component.normal s ∈ comps → GoodSeg s) :
    ∀ s ∈ segs, GoodSeg s := by
  induction comps generalizing acc with
  | nil =>
    simp only [normalizeComponents] at h
    injection h with h
    subst h
    exact hacc
  | cons c rest ih =>
    cases c with
    | normal s =>
      simp only [normalizeComponents] at h
      refine ih h ?_ ?_
      · intro u hu
        rcases List.mem_append.mp hu with hu | hu
        · exact hacc u hu
        · rcases List.mem_singleton.mp hu with rfl
          exact hcomps u (List.mem_cons_self _ _)
      · intro u hu
        exact hcomps u (List.mem_cons_of_mem _ hu)
    | curDir =>
      simp only [normalizeComponents] at h
      refine ih h hacc ?_
      intro u hu
      exact hcomps u (List.mem_cons_of_mem _ hu)
    | parentDir =>
      simp only [normalizeComponents] at h
      by_cases hemp : acc.isEmpty
      · rw [if_pos hemp] at h
        exact absurd h (by simp)
      · rw [if_neg hemp] at h
        refine ih h ?_ ?_
        · intro u hu
          exact hacc u ((List.dropLast_sublist acc).subset hu)
        · intro u hu
          exact hcomps u (List.mem_cons_of_mem _ hu)
    | rootDir =>
      simp only [normalizeComponents] at h
      exact absurd h (by simp)

/-- Running the loop over a list of already-normal components appends
them all. -/
theorem normalizeComponents_map_normal (segs : List String) (acc : List String) :
    normalizeComponents (segs.map Component.normal) acc = Except.ok (acc ++ segs) := by
  induction segs generalizing acc with
  | nil => simp [normalizeComponents]
  | cons a t ih =>
    simp only [List.map_cons, normalizeComponents, ih, List.append_assoc,
      List.singleton_append]

/-- Splitting the rendered path recovers exactly the good segments. -/
theorem pathSegStrings_renderPath (segs : List String) (h : ∀ s ∈ segs, GoodSeg s) :
    pathSegStrings (renderPath segs) = segs := by
  cases segs with
  | nil => rfl
  | cons a t =>
    unfold pathSegStrings
    have hdata : (renderPath (a :: t)).data =
        List.intercalate ['/'] ((a :: t).map String.data) := rfl
    rw [hdata]
    rw [List.splitOn_intercalate _ '/' ?notin ?nonnil]
    case notin =>
      intro l hl
      rcases List.mem_map.mp hl with ⟨s, hs, rfl⟩
      exact (h s hs).2.2.2
    case nonnil => simp
    rw [List.map_map]
    have hid : ((a :: t).map (String.mk ∘ String.data)) = a :: t := by
      refine (List.map_congr_left ?_).trans (List.map_id _)
      intro s _
      exact strMk_data s
    rw [hid]
    rw [List.filter_eq_self.mpr]
    intro s hs
    exact decide_eq_true (h s hs).1

/-- The rendered path of good segments never starts with a separator. -/
theorem renderPath_head_ne_slash (segs : List String) (h : ∀ s ∈ segs, GoodSeg s) :
    (renderPath segs).data.head? ≠ some '/' := by
  cases segs with
  | nil => simp [renderPath, List.intercalate]
  | cons a t =>
    have ha := h a (List.mem_cons_self a t)
    have hrest : ∃ r, (renderPath (a :: t)).data = a.data ++ r := by
      cases t with
      | nil =>
        exact ⟨[], by simp [renderPath, List.intercalate, List.intersperse]⟩
      | cons b m =>
        refine ⟨['/'] ++ List.intercalate ['/'] ((b :: m).map String.data), ?_⟩
        simp [renderPath, List.intercalate, List.intersperse_cons_cons]
    rcases hrest with ⟨r, hr⟩
    rw [hr]
    rcases hd : a.data with _ | ⟨c, cs⟩
    · exact absurd (by cases a with | mk l => simp_all) ha.1
    · intro hsome
      rw [List.cons_append, List.head?_cons, Option.some_inj] at hsome
      subst hsome
      exact ha.2.2.2 (by rw [hd]; exact List.mem_cons_self _ _)

/-- Re-parsing the rendered path of good segments gives them back as
normal components. -/
theorem pathComponents_renderPath (segs : List String) (h : ∀ s ∈ segs, GoodSeg s) :
    pathComponents (renderPath segs) = segs.map Component.normal := by
  simp only [pathComponents]
  rw [if_neg (renderPath_head_ne_slash segs h)]
  rw [pathSegStrings_renderPath segs h]
  refine List.map_congr_left ?_
  intro s hs
  unfold segComponent
  rw [if_neg (h s hs).2.1, if_neg (h s hs).2.2.1]

theorem pathSegStrings_eq_data (v : String) :
    pathSegStrings v = dataSegStrings v.data := rfl

theorem data_ne_nil_of_ne_empty {s : String} (h : s ≠ "") : s.data ≠ [] := by
  intro hd
  apply h
  cases s with
  | mk l =>
    cases hd
    rfl

/-- `components()` is the root flag followed by the classified
segments. -/
theorem pathComponents_eq (x : String) :
    pathComponents x =
      (if x.data.head? = some '/' then [Component.rootDir] else [])
      ++ (pathSegStrings x).map segComponent := by
  unfold pathComponents
  by_cases hx : x.data.head? = some '/' <;> simp [hx]

/-- Segments of a string that splits as `u ++ '/' :: v.data`. -/
theorem pathSegStrings_split (w : String) (u : List Char) (v : String)
    (hw : w.data = u ++ '/' :: v.data) :
    pathSegStrings w = dataSegStrings u ++ pathSegStrings v := by
  rw [pathSegStrings_eq_data, pathSegStrings_eq_data]
  unfold dataSegStrings
  rw [hw, splitOn_middle, List.map_append, List.filter_append]

theorem map_segComponent_renderPath (segs : List String) (h : ∀ s ∈ segs, GoodSeg s) :
    (pathSegStrings (renderPath segs)).map segComponent = segs.map Component.normal := by
  rw [pathSegStrings_renderPath segs h]
  refine List.map_congr_left ?_
  intro s hs
  unfold segComponent
  rw [if_neg (h s hs).2.1, if_neg (h s hs).2.2.1]

/-- Joining a root with the rendered good segments appends exactly those
segments, as normal components, to the root's own components. -/
theorem pathComponents_pathJoin (root : String) (segs : List String)
    (h : ∀ s ∈ segs, GoodSeg s) :
    pathComponents (pathJoin root (renderPath segs)) =
      pathComponents root ++ segs.map Component.normal := by
  unfold pathJoin
  rw [if_neg (renderPath_head_ne_slash segs h)]
  by_cases hroot : root = ""
  · subst hroot
    rw [if_pos rfl, pathComponents_renderPath segs h]
    have h0 : pathComponents "" = [] := rfl
    rw [h0, List.nil_append]
  · rw [if_neg hroot]
    have hrne : root.data ≠ [] := data_ne_nil_of_ne_empty hroot
    by_cases hlast : root.data.getLast? = some '/'
    · rw [if_pos hlast]
      rcases List.getLast?_eq_some_iff.mp hlast with ⟨init, hinit⟩
      have hqdata : (root ++ renderPath segs).data =
          init ++ '/' :: (renderPath segs).data := by
        rw [String.data_append, hinit, List.append_assoc, List.singleton_append]
      have hrdata : root.data = init ++ '/' :: ("" : String).data := by
        rw [hinit]
      rw [pathComponents_eq (root ++ renderPath segs), pathComponents_eq root]
      rw [pathSegStrings_split _ init _ hqdata, pathSegStrings_split root init "" hrdata]
      have hflag : (root ++ renderPath segs).data.head? = root.data.head? := by
        rw [String.data_append]
        exact List.head?_append_of_ne_nil _ hrne
      rw [hflag, List.map_append, List.map_append, map_segComponent_renderPath segs h]
      have hempty : (pathSegStrings "").map segComponent = [] := rfl
      rw [hempty, List.append_nil, List.append_assoc]
    · rw [if_neg hlast]
      have hqdata : (root ++ "/" ++ renderPath segs).data =
          root.data ++ '/' :: (renderPath segs).data := by
        rw [String.data_append, String.data_append, List.append_assoc]
        rfl
      rw [pathComponents_eq (root ++ "/" ++ renderPath segs), pathComponents_eq root]
      rw [pathSegStrings_split _ root.data _ hqdata]
      have hflag : (root ++ "/" ++ renderPath segs).data.head? = root.data.head? := by
        rw [hqdata]
        exact List.head?_append_of_ne_nil _ hrne
      rw [hflag, ← pathSegStrings_eq_data root, List.map_append,
        map_segComponent_renderPath segs h, List.append_assoc]

/-- The loop fails with the escape error exactly when a parent reference
occurs with nothing left to pop (the accumulator supplies the starting
depth). -/
theorem normalizeComponents_escape_iff (comps : List Component) (acc : List String) :
    (normalizeComponents comps acc = Except.error "path escapes root"
      ↔ escapesFrom comps acc.length = true) := by
  induction comps generalizing acc with
  | nil => simp [normalizeComponents, escapesFrom]
  | cons c rest ih =>
    cases c with
    | normal s =>
      simp only [normalizeComponents, escapesFrom]
      rw [ih, List.length_append, List.length_singleton]
    | curDir =>
      simp only [normalizeComponents, escapesFrom]
      exact ih acc
    | parentDir =>
      simp only [normalizeComponents]
      by_cases hemp : acc.isEmpty
      · have hacc : acc = [] := List.isEmpty_iff.mp hemp
        subst hacc
        rw [if_pos hemp]
        simp [escapesFrom]
      · have hne : acc ≠ [] := fun hacc => hemp (by simp [hacc])
        rw [if_neg hemp]
        rcases hlen : acc.length with _ | m
        · exact absurd (List.length_eq_zero.mp hlen) hne
        · rw [ih, List.length_dropLast, hlen]
          simp [escapesFrom]
    | rootDir =>
      simp only [normalizeComponents, escapesFrom]
      constructor
      · intro habs
        injection habs with habs
        exact absurd habs (by decide)
      · intro habs
        exact absurd habs (by decide)

/-- On a component list with no parent and no root component, the loop
accepts and appends exactly the normal segment strings. -/
theorem normalizeComponents_no_parent (comps : List Component) (acc : List String)
    (h : ∀ c ∈ comps, c ≠ Component.parentDir ∧ c ≠ Component.rootDir) :
    normalizeComponents comps acc = Except.ok (acc ++ normalStrings comps) := by
  induction comps generalizing acc with
  | nil => simp [normalizeComponents, normalStrings]
  | cons c rest ih =>
    cases c with
    | normal s =>
      have ihr := ih (acc ++ [s]) (fun c hc => h c (List.mem_cons_of_mem _ hc))
      simp only [normalizeComponents, normalStrings, List.filterMap_cons] at ihr ⊢
      rw [ihr, List.append_assoc, List.singleton_append]
    | curDir =>
      have ihr := ih acc (fun c hc => h c (List.mem_cons_of_mem _ hc))
      simp only [normalizeComponents, normalStrings, List.filterMap_cons] at ihr ⊢
      exact ihr
    | parentDir =>
      exact absurd rfl (h _ (List.mem_cons_self _ _)).1
    | rootDir =>
      exact absurd rfl (h _ (List.mem_cons_self _ _)).2

/-- The loop can only fail with the escape or the absolute-path
message. -/
theorem normalizeComponents_error_cases {comps : List Component} {acc : List String}
    {e : String} (h : normalizeComponents comps acc = Except.error e) :
    e = "path escapes root" ∨ e = "absolute paths are not allowed" := by
  induction comps generalizing acc with
  | nil =>
    simp only [normalizeComponents] at h
    exact absurd h (by simp)
  | cons c rest ih =>
    cases c with
    | normal s =>
      simp only [normalizeComponents] at h
      exact ih h
    | curDir =>
      simp only [normalizeComponents] at h
      exact ih h
    | parentDir =>
      simp only [normalizeComponents] at h
      by_cases hemp : acc.isEmpty
      · rw [if_pos hemp] at h
        injection h with h
        exact Or.inl h.symm
      · rw [if_neg hemp] at h
        exact ih h
    | rootDir =>
      simp only [normalizeComponents] at h
      injection h with h
      exact Or.inr h.symm

/-- C1: for every root directory and every request path string on which
`normalize_relative_path` succeeds, `resolve_under_root` returns a path
whose components are exactly the root's components followed by normal
segments only — lexically the root itself (no extra segment) or a
descendant of it, never a location outside the root. -/
theorem resolve_under_root_confined (root p q : String)
    (h : resolve_under_root root p = Except.ok q) :
    ∃ extra : List String,
      pathComponents q = pathComponents root ++ extra.map Component.normal := by
  rcases hn : normalize_relative_path p with e | normalized
  · rw [resolve_under_root, hn] at h
    exact absurd h (by simp)
  · rw [resolve_under_root, hn] at h
    simp only [Except.ok.injEq] at h
    subst h
    rw [normalize_relative_path_eq] at hn
    rcases hl : normalizeComponents (pathComponents p) [] with e | segs
    · rw [hl] at hn
      exact absurd hn (by simp)
    · rw [hl] at hn
      simp only [Except.ok.injEq] at hn
      subst hn
      have hgood : ∀ s ∈ segs, GoodSeg s :=
        normalizeComponents_ok_good hl
          (by intro s hs; exact absurd hs (List.not_mem_nil s))
          (fun s hs => goodSeg_of_mem_pathComponents hs)
      exact ⟨segs, pathComponents_pathJoin root segs hgood⟩

theorem resolve_under_root_confined_witness :
    ∃ extra : List String,
      pathComponents "/data/repo/a/b" =
        pathComponents "/data/repo" ++ extra.map Component.normal :=
  resolve_under_root_confined "/data/repo" "a/b" "/data/repo/a/b" (by rfl)

/-- C2: `normalize_relative_path` fails with the escape error exactly
when some `..` occurs with no previously accepted segment left to pop;
an input whose first component is an absolute-path root fails with the
absolute-path rejection; `../../x`, `a/../../x` and `/x` are rejected
accordingly. -/
theorem normalize_relative_path_rejections :
    (∀ value : String,
        normalize_relative_path value = Except.error "path escapes root"
          ↔ escapesFrom (pathComponents value) 0 = true)
    ∧ (∀ value : String, value.data.head? = some '/' →
        normalize_relative_path value = Except.error "absolute paths are not allowed")
    ∧ normalize_relative_path "../../x" = Except.error "path escapes root"
    ∧ normalize_relative_path "a/../../x" = Except.error "path escapes root"
    ∧ normalize_relative_path "/x" = Except.error "absolute paths are not allowed" := by
  refine ⟨?_, ?_, by rfl, by rfl, by rfl⟩
  · intro value
    have hiff := normalizeComponents_escape_iff (pathComponents value) []
    rw [normalize_relative_path_eq]
    rcases hl : normalizeComponents (pathComponents value) [] with e | segs
    · rw [hl] at hiff
      simpa using hiff
    · rw [hl] at hiff
      simp only [List.length_nil] at hiff
      constructor
      · intro hcontra
        exact absurd hcontra (by simp)
      · intro hesc
        exact absurd (hiff.mpr hesc) (by simp)
  · intro value hv
    have hcomps : pathComponents value =
        Component.rootDir :: (pathSegStrings value).map segComponent := by
      simp [pathComponents, hv]
    rw [normalize_relative_path_eq, hcomps]
    rfl

theorem normalize_relative_path_rejections_witness :
    normalize_relative_path "b/../../x" = Except.error "path escapes root" :=
  (normalize_relative_path_rejections.1 "b/../../x").mpr (by rfl)

/-- C7: on an input whose components are only `.` and normal segments,
`normalize_relative_path` succeeds with the lexically simplified path —
the normal segments joined in order, every `.` discarded — which
contains no `.`/`..` segment and no leading separator; and
`./a/./b.txt` normalizes the same as `a/b.txt`. -/
theorem normalize_relative_path_dot_segments :
    (∀ value : String,
        (∀ c ∈ pathComponents value,
            c ≠ Component.parentDir ∧ c ≠ Component.rootDir) →
        normalize_relative_path value =
            Except.ok (renderPath (normalStrings (pathComponents value)))
          ∧ (∀ s ∈ normalStrings (pathComponents value),
              s ≠ "" ∧ s ≠ "." ∧ s ≠ "..")
          ∧ (renderPath (normalStrings (pathComponents value))).data.head? ≠ some '/')
    ∧ normalize_relative_path "./a/./b.txt" = normalize_relative_path "a/b.txt" := by
  constructor
  · intro value hc
    have hgood : ∀ s ∈ normalStrings (pathComponents value), GoodSeg s := by
      intro s hs
      rcases List.mem_filterMap.mp hs with ⟨c, hcmem, hcs⟩
      cases c with
      | normal u =>
        simp only [Option.some_inj] at hcs
        subst hcs
        exact goodSeg_of_mem_pathComponents hcmem
      | rootDir => exact absurd hcs (by simp)
      | curDir => exact absurd hcs (by simp)
      | parentDir => exact absurd hcs (by simp)
    refine ⟨?_, ?_, renderPath_head_ne_slash _ hgood⟩
    · rw [normalize_relative_path_eq,
        normalizeComponents_no_parent (pathComponents value) [] hc]
      simp
    · intro s hs
      exact ⟨(hgood s hs).1, (hgood s hs).2.1, (hgood s hs).2.2.1⟩
  · rfl

theorem normalize_relative_path_dot_segments_witness :
    normalize_relative_path "./c/./d.txt" =
        Except.ok (renderPath (normalStrings (pathComponents "./c/./d.txt")))
      ∧ (∀ s ∈ normalStrings (pathComponents "./c/./d.txt"),
          s ≠ "" ∧ s ≠ "." ∧ s ≠ "..")
      ∧ (renderPath (normalStrings (pathComponents "./c/./d.txt"))).data.head?
          ≠ some '/' :=
  normalize_relative_path_dot_segments.1 "./c/./d.txt" (by decide)

/-- C9: `normalize_relative_path` is idempotent — a successful output
normalizes to itself. -/
theorem normalize_relative_path_idempotent (p q : String)
    (h : normalize_relative_path p = Except.ok q) :
    normalize_relative_path q = Except.ok q := by
  rw [normalize_relative_path_eq] at h
  rcases hl : normalizeComponents (pathComponents p) [] with e | segs
  · rw [hl] at h
    exact absurd h (by simp)
  · rw [hl] at h
    simp only [Except.ok.injEq] at h
    subst h
    have hgood : ∀ s ∈ segs, GoodSeg s :=
      normalizeComponents_ok_good hl
        (by intro s hs; exact absurd hs (List.not_mem_nil s))
        (fun s hs => goodSeg_of_mem_pathComponents hs)
    rw [normalize_relative_path_eq, pathComponents_renderPath segs hgood,
      normalizeComponents_map_normal segs []]
    simp

theorem normalize_relative_path_idempotent_witness :
    normalize_relative_path "f" = Except.ok "f" :=
  normalize_relative_path_idempotent "e/../f" "f" (by rfl)

/-- C10: for every input string, the invalid-unicode error branch of
`normalize_relative_path` is unreachable: the final `to_str` conversion
of the accumulated path always succeeds. -/
theorem normalize_relative_path_no_invalid_unicode (value : String) :
    normalize_relative_path value ≠ Except.error "path contains invalid unicode" := by
  rw [normalize_relative_path_eq]
  rcases hl : normalizeComponents (pathComponents value) [] with e | segs
  · intro hcontra
    injection hcontra with hcontra
    rcases normalizeComponents_error_cases hl with he | he <;>
      rw [he] at hcontra <;> exact absurd hcontra (by decide)
  · simp

theorem normalize_relative_path_no_invalid_unicode_witness :
    normalize_relative_path "g" ≠ Except.error "path contains invalid unicode" :=
  normalize_relative_path_no_invalid_unicode "g"

/-- C3: the status transition of `sync_once`.  A failed attempt only
stamps the attempt time and records the error, leaving `current_sha`,
`previous_sha` and `last_success_at` untouched; a successful attempt
moves the old `current_sha` into `previous_sha` exactly when the new
sha differs, sets `current_sha` and the success time, and clears the
error. -/
theorem sync_once_status_transition (status : SyncStatus) (attemptAt successAt : Nat) :
    (∀ err : String,
        sync_once status attemptAt (Except.error err) successAt =
          ({ status with last_attempt_at := some attemptAt, last_error := some err },
            Except.error err))
    ∧ (∀ sha : String,
        sync_once status attemptAt (Except.ok sha) successAt =
          ({ status with
              previous_sha :=
                if status.current_sha = some sha then status.previous_sha
                else status.current_sha
              current_sha := some sha
              last_success_at := some successAt
              last_attempt_at := some attemptAt
              last_error := none },
            Except.ok ())) := by
  constructor
  · intro err
    rfl
  · intro sha
    by_cases hsha : status.current_sha = some sha
    · simp [sync_once, hsha]
    · simp [sync_once, hsha]

/-- `syncRepoSteps` (the tail of `ensure_repo_synced_blocking`) never
produces the "mirror dir does not exist" error. -/
theorem syncRepoSteps_ne_mirror_unavailable (env : GitEnv) :
    syncRepoSteps env ≠ Except.error SyncError.mirrorDirDoesNotExist := by
  intro hcontra
  unfold syncRepoSteps at hcontra
  repeat' split at hcontra
  all_goals
    first
      | (injection hcontra with h; exact SyncError.noConfusion h)
      | exact Except.noConfusion hcontra

/-- C5 (amended): the "mirror dir does not exist" failure branch fires
only when the version-control metadata path exists while the mirror
directory itself does not; on any filesystem state where a child's
existence implies its parent's, the branch is unreachable, so an
existing-but-unusable mirror directory never produces this error. -/
theorem ensure_repo_mirror_unavailable_unreachable (env : GitEnv)
    (hfs : env.dotGitExists = true → env.mirrorDirExists = true) :
    ensure_repo_synced_blocking env ≠ Except.error SyncError.mirrorDirDoesNotExist := by
  intro hcontra
  unfold ensure_repo_synced_blocking at hcontra
  cases hdg : env.dotGitExists with
  | false =>
    rw [hdg] at hcontra
    simp only [Bool.not_false, if_true] at hcontra
    split at hcontra
    · injection hcontra with h
      exact SyncError.noConfusion h
    · split at hcontra
      · injection hcontra with h
        exact SyncError.noConfusion h
      · exact syncRepoSteps_ne_mirror_unavailable env hcontra
  | true =>
    rw [hdg, hfs hdg] at hcontra
    simp only [Bool.not_true, Bool.false_eq_true, if_false] at hcontra
    exact syncRepoSteps_ne_mirror_unavailable env hcontra

theorem ensure_repo_mirror_unavailable_unreachable_witness :
    ensure_repo_synced_blocking
        { dotGitExists := true, mirrorDirExists := true, createParentOk := true,
          cloneOk := true, openOk := true, setOriginOk := true, fetchOk := true,
          resetOk := true, cleanOk := true, headSha := some "abc" }
      ≠ Except.error SyncError.mirrorDirDoesNotExist :=
  ensure_repo_mirror_unavailable_unreachable
    { dotGitExists := true, mirrorDirExists := true, createParentOk := true,
      cloneOk := true, openOk := true, setOriginOk := true, fetchOk := true,
      resetOk := true, cleanOk := true, headSha := some "abc" }
    (fun _ => rfl)

/-- C5 counterexample: a state where the mirror directory exists but is
unusable as a repository — no version-control metadata, and the clone
into it fails — produces the clone error, not the
"mirror dir does not exist" (`MirrorUnavailable`) error. -/
theorem ensure_repo_mirror_unavailable_cex :
    ensure_repo_synced_blocking
        { dotGitExists := false, mirrorDirExists := true, createParentOk := true,
          cloneOk := false, openOk := true, setOriginOk := true, fetchOk := true,
          resetOk := true, cleanOk := true, headSha := some "abc" }
      = Except.error SyncError.cloneFailed
    ∧ (Except.error SyncError.cloneFailed : Except SyncError String)
        ≠ Except.error SyncError.mirrorDirDoesNotExist := by
  refine ⟨rfl, ?_⟩
  intro h
  injection h with h
  exact SyncError.noConfusion h

/-- C8: `/health` reports `"degraded"` exactly when an error is
recorded and no success has ever occurred, and `"ok"` in every other
state. -/
theorem health_degraded_iff (s : SyncStatus) :
    ((health s).status = "degraded"
      ↔ s.last_error ≠ none ∧ s.last_success_at = none)
    ∧ ((s.last_error = none ∨ s.last_success_at ≠ none) →
        (health s).status = "ok") := by
  by_cases hc : s.last_error.isSome ∧ s.last_success_at.isNone
  · have h1 : s.last_error ≠ none := Option.isSome_iff_ne_none.mp hc.1
    have h2 : s.last_success_at = none := Option.isNone_iff_eq_none.mp hc.2
    have hst : (health s).status = "degraded" := by
      simp only [health]
      rw [if_pos hc]
    refine ⟨⟨fun _ => ⟨h1, h2⟩, fun _ => hst⟩, ?_⟩
    intro hdisj
    rcases hdisj with hd | hd
    · exact absurd hd h1
    · exact absurd h2 hd
  · have hst : (health s).status = "ok" := by
      simp only [health]
      rw [if_neg hc]
    refine ⟨⟨fun hcontra => ?_, fun hand => ?_⟩, fun _ => hst⟩
    · rw [hst] at hcontra
      exact absurd hcontra (by decide)
    · exact absurd ⟨Option.isSome_iff_ne_none.mpr hand.1,
        Option.isNone_iff_eq_none.mpr hand.2⟩ hc

theorem health_degraded_iff_witness :
    (health { current_sha := none, previous_sha := none, last_success_at := none,
              last_attempt_at := none, last_error := some "fetch failed" }).status
      = "degraded" :=
  (health_degraded_iff
      { current_sha := none, previous_sha := none, last_success_at := none,
        last_attempt_at := none, last_error := some "fetch failed" }).1.mpr
    (by decide)

/-- C4: `serve_file` answers not-modified (304, no body) exactly when
the metadata lookup succeeded on a regular file within the size limit,
the read succeeded, and the `if-none-match` header equals the freshly
computed quoted ETag character for character; in particular a request
for a path whose metadata lookup fails yields the 404 response, never
not-modified. -/
theorem serve_file_not_modified_iff (digestHex : List Nat → String)
    (metadata : Option FileMeta) (readResult : Except Unit (List Nat))
    (ifNoneMatch : Option String) (maxSize : Nat) :
    (serve_file digestHex metadata readResult ifNoneMatch maxSize = Response.notModified
      ↔ ∃ m bytes, metadata = some m ∧ m.is_file = true ∧ m.len ≤ maxSize
          ∧ readResult = Except.ok bytes
          ∧ ifNoneMatch = some (etagFor digestHex bytes))
    ∧ (metadata = none →
        serve_file digestHex metadata readResult ifNoneMatch maxSize =
          Response.notFound "file not found") := by
  constructor
  · constructor
    · intro heq
      cases metadata with
      | none => exact absurd heq (by simp [serve_file])
      | some m =>
        cases hfile : m.is_file with
        | false => exact absurd heq (by simp [serve_file, hfile])
        | true =>
          by_cases hlen : m.len > maxSize
          · exact absurd heq (by simp [serve_file, hfile, hlen])
          · cases hread : readResult with
            | error u => exact absurd heq (by simp [serve_file, hfile, hlen, hread])
            | ok bytes =>
              cases hhdr : ifNoneMatch with
              | none => exact absurd heq (by simp [serve_file, hfile, hlen, hread, hhdr])
              | some clientEtag =>
                by_cases hmatch : clientEtag = etagFor digestHex bytes
                · exact ⟨m, bytes, rfl, hfile, by omega, rfl, by rw [hmatch]⟩
                · exact absurd heq
                    (by simp [serve_file, hfile, hlen, hread, hhdr, hmatch])
    · rintro ⟨m, bytes, rfl, hfile, hlen, hread, hhdr⟩
      subst hread
      subst hhdr
      simp [serve_file, hfile, Nat.not_lt.mpr hlen, etagFor]
  · intro h
    subst h
    rfl

theorem serve_file_not_modified_iff_witness :
    serve_file (fun _ => "00") none (Except.ok []) (some "\"00\"") 10 =
      Response.notFound "file not found" :=
  (serve_file_not_modified_iff (fun _ => "00") none (Except.ok []) (some "\"00\"") 10).2
    rfl

/-- C6: `serve_file` rejects with 413 exactly when the metadata lookup
found a regular file whose length strictly exceeds the maximum; the
rejection does not depend on the read result (the contents are never
consulted), and a file exactly at the maximum is not rejected. -/
theorem serve_file_payload_too_large_iff (digestHex : List Nat → String)
    (metadata : Option FileMeta) (readResult : Except Unit (List Nat))
    (ifNoneMatch : Option String) (maxSize : Nat) :
    (serve_file digestHex metadata readResult ifNoneMatch maxSize =
        Response.payloadTooLarge
      ↔ ∃ m, metadata = some m ∧ m.is_file = true ∧ maxSize < m.len)
    ∧ (∀ m, metadata = some m → m.is_file = true → maxSize < m.len →
        ∀ readResult' : Except Unit (List Nat),
          serve_file digestHex metadata readResult' ifNoneMatch maxSize =
            Response.payloadTooLarge)
    ∧ (∀ m, metadata = some m → m.len = maxSize →
        serve_file digestHex metadata readResult ifNoneMatch maxSize ≠
          Response.payloadTooLarge) := by
  refine ⟨⟨?_, ?_⟩, ?_, ?_⟩
  · intro heq
    cases metadata with
    | none => exact absurd heq (by simp [serve_file])
    | some m =>
      cases hfile : m.is_file with
      | false => exact absurd heq (by simp [serve_file, hfile])
      | true =>
        by_cases hlen : m.len > maxSize
        · exact ⟨m, rfl, hfile, hlen⟩
        · cases hread : readResult with
          | error u => exact absurd heq (by simp [serve_file, hfile, hlen, hread])
          | ok bytes =>
            cases hhdr : ifNoneMatch with
            | none => exact absurd heq (by simp [serve_file, hfile, hlen, hread, hhdr])
            | some clientEtag =>
              by_cases hmatch : clientEtag = etagFor digestHex bytes
              · exact absurd heq
                  (by simp [serve_file, hfile, hlen, hread, hhdr, hmatch])
              · exact absurd heq
                  (by simp [serve_file, hfile, hlen, hread, hhdr, hmatch])
  · rintro ⟨m, rfl, hfile, hlen⟩
    simp [serve_file, hfile, hlen]
  · rintro m rfl hfile hlen readResult'
    simp [serve_file, hfile, hlen]
  · rintro m rfl hlen heq
    cases hfile : m.is_file with
    | false => exact absurd heq (by simp [serve_file, hfile])
    | true =>
      have hnot : ¬(m.len > maxSize) := by omega
      cases hread : readResult with
      | error u => exact absurd heq (by simp [serve_file, hfile, hnot, hread])
      | ok bytes =>
        cases hhdr : ifNoneMatch with
        | none => exact absurd heq (by simp [serve_file, hfile, hnot, hread, hhdr])
        | some clientEtag =>
          by_cases hmatch : clientEtag = etagFor digestHex bytes
          · exact absurd heq (by simp [serve_file, hfile, hnot, hread, hhdr, hmatch])
          · exact absurd heq (by simp [serve_file, hfile, hnot, hread, hhdr, hmatch])

theorem serve_file_payload_too_large_iff_witness :
    serve_file (fun _ => "11") (some { is_file := true, len := 11 })
        (Except.error ()) none 10 =
      Response.payloadTooLarge :=
  (serve_file_payload_too_large_iff (fun _ => "11") (some { is_file := true, len := 11 })
      (Except.ok []) none 10).2.1
    { is_file := true, len := 11 } rfl rfl (by decide) (Except.error ())
